import Mathlib

/-!
Shallow embedding of `src/pagerank.py` (the PageRank ranking engine).

Python dicts are modelled as association lists that keep insertion order
and update the first occurrence of a key, which is exactly the observable
behaviour of a dict whose keys are unique.  Python sets of pages are
modelled as lists of pages (the corpus loader produces duplicate-free
sets).  Machine floats are modelled by exact rationals.  Fallible calls
are modelled with `Except`: the error constructors record which Python
exception the interpreter would raise.  The two random draws of the code
(`random.choices` over the two candidate branch sets in
`transition_model`, and the per-step sample draw plus the initial
`random.choice` in `sample_pagerank`) are modelled by explicit oracle
parameters that select one element of the population; properties are
quantified over the oracle.
-/

abbrev Page := String

/-- The graph: a dict from page to the set of pages it links to. -/
abbrev Corpus := List (Page × List Page)

/-- A rank mapping: a dict from page to a rational value. -/
abbrev RankDist := List (Page × ℚ)

/-- The Python exceptions relevant to the engine.  The spec names
`emptyCorpusError` and `unknownPageError`; the code itself can only
produce `zeroDivisionError` (division by zero) and `indexError`
(`random.choice` on an empty sequence). -/
inductive PyError where
  | zeroDivisionError
  | indexError
  | emptyCorpusError
  | unknownPageError
deriving DecidableEq

deriving instance DecidableEq for Except

/-- The keys of a dict, in insertion order. -/
def keysOf {α : Type} (d : List (Page × α)) : List Page := d.map Prod.fst

/-- `d[k] = v` on a Python dict: update the first occurrence of `k`,
or append the binding at the end when `k` is absent. -/
def dictSet {α : Type} : List (Page × α) → Page → α → List (Page × α)
  | [], k, v => [(k, v)]
  | e :: rest, k, v => if e.1 = k then (k, v) :: rest else e :: dictSet rest k v

/-- `d.get(k, dflt)`: the value at the first occurrence of `k`, or the default. -/
def lookupD {α : Type} (d : List (Page × α)) (k : Page) (dflt : α) : α :=
  (List.lookup k d).getD dflt

/-- `corpus[q]` (used only at keys of the corpus in the code; the default
never fires there). -/
def linksOf (corpus : Corpus) (q : Page) : List Page := lookupD corpus q []

/-- `pageRanks[p]` (the code only reads keys it has written). -/
def getRank (ranks : RankDist) (p : Page) : ℚ := lookupD ranks p 0

/-- `getAllPages` from the source: the set of all keys of the corpus. -/
def getAllPages (corpus : Corpus) : List Page := keysOf corpus

/-- `transition_model` from the source.  `pick` is the outcome of the
`random.choices` draw between the two branch sets: `true` selects
`linkedPages` (drawn with weight `damping_factor`), `false` selects
`allPages` (weight `1 - damping_factor`).  In the Python code
`linkedPages` is bound to the still-empty `allPages` set in the
fallback case and the subsequent loop fills that very set, so the
fallback value is the full key set; the model binds it directly.
`len(selection) = 0` makes line 83 of the source divide by zero. -/
def transition_model (corpus : Corpus) (page : Page) (damping_factor : ℚ)
    (pick : Bool) : Except PyError RankDist :=
  let allPages := keysOf corpus
  let linkedPages :=
    if page ∈ keysOf corpus ∧ 0 < (linksOf corpus page).length then
      linksOf corpus page
    else allPages
  let selection := if pick then linkedPages else allPages
  if selection.length = 0 then .error .zeroDivisionError
  else
    let probabilityPerPage := damping_factor / (selection.length : ℚ)
    let teleportationProbability := (1 - damping_factor) / ((selection.length : ℚ) + 1)
    let probabilityDict := dictSet [] page teleportationProbability
    .ok (selection.foldl
      (fun acc selectedPage =>
        dictSet acc selectedPage (probabilityPerPage + teleportationProbability))
      probabilityDict)

/-- The body of the `while n > 0` loop of `sample_pagerank`.  `n` counts
the remaining samples, `step` indexes the oracle calls, `counts` is the
`pageRank` dict while it still holds raw visit counts.  The draw
`random.choices(choices, weights).pop()` always returns one element of
`choices`; the oracle `pickIdx` selects which one (reduced modulo the
population size so that every oracle is a valid draw). -/
def sampleLoop (corpus : Corpus) (damping_factor : ℚ) (branch : ℕ → Bool)
    (pickIdx : ℕ → ℕ) :
    ℕ → ℕ → Page → List (Page × ℕ) → Except PyError (List (Page × ℕ))
  | 0, _, _, counts => .ok counts
  | Nat.succ n, step, page, counts =>
    match transition_model corpus page damping_factor (branch step) with
    | .error e => .error e
    | .ok transitionChain =>
      let choices := keysOf transitionChain
      let sample := choices.getD (pickIdx step % choices.length) ""
      sampleLoop corpus damping_factor branch pickIdx n (step + 1) sample
        (dictSet counts sample (lookupD counts sample 0 + 1))

/-- `sample_pagerank` from the source.  `initPick` is the oracle for the
initial `random.choice(pages)`, which raises `IndexError` on an empty
sequence; `branch` and `pickIdx` are the per-step oracles.  After the
walk each recorded count is divided by the requested sample length. -/
def sample_pagerank (corpus : Corpus) (damping_factor : ℚ) (n : ℕ)
    (initPick : ℕ) (branch : ℕ → Bool) (pickIdx : ℕ → ℕ) :
    Except PyError RankDist :=
  let pages := keysOf corpus
  if pages.length = 0 then .error .indexError
  else
    let page := pages.getD (initPick % pages.length) ""
    match sampleLoop corpus damping_factor branch pickIdx n 0 page [] with
    | .error e => .error e
    | .ok counts => .ok (counts.map (fun e => (e.1, (e.2 : ℚ) / (n : ℚ))))

/-- `calculate_pagerank` from the source.  The loop `for link in corpus`
iterates over the keys the dict has at entry, lazily rewrites an empty
outlink set to the full key set, skips links that do not point at
`page`, and accumulates `pageRanks[link] / len(corpus[link])`.  The
returned pair carries the final state of the (mutated) corpus dict.
`calcStep` is the body of that loop, with accumulator
`(sigmaValue, corpus)`. -/
def calcStep (page : Page) (pageRanks : RankDist) (acc : ℚ × Corpus)
    (link : Page) : ℚ × Corpus :=
  let c := if (linksOf acc.2 link).length = 0 then
      dictSet acc.2 link (getAllPages acc.2)
    else acc.2
  if page ∈ linksOf c link then
    (acc.1 + getRank pageRanks link / ((linksOf c link).length : ℚ), c)
  else (acc.1, c)

def calculate_pagerank (page : Page) (numPage : ℕ) (corpus : Corpus)
    (pageRanks : RankDist) (damping_factor : ℚ) : ℚ × Corpus :=
  let rank := (1 - damping_factor) / (numPage : ℚ)
  let folded := (keysOf corpus).foldl (calcStep page pageRanks) (0, corpus)
  (rank + damping_factor * folded.1, folded.2)

/-- `hasConverged` from the source: the code returns `False` as soon as
one page moved by more than the hard-coded `0.001`, and `True` after
scanning every key of `newRanks`. -/
def hasConverged (newRanks oldRanks : RankDist) : Bool :=
  newRanks.all (fun e => decide (|e.2 - getRank oldRanks e.1| ≤ 1 / 1000))

/-- One pass of the `for page in pageRanks` loop inside
`iterate_pagerank`: every key of `pageRanks` is assigned its
`calculate_pagerank` value in `newRanks`, threading the corpus dict
through the calls.  Returns the updated `newRanks` and corpus.
`sweepStep` is the body of that loop. -/
def sweepStep (damping_factor : ℚ) (numPage : ℕ) (pageRanks : RankDist)
    (acc : RankDist × Corpus) (page : Page) : RankDist × Corpus :=
  let r := calculate_pagerank page numPage acc.2 pageRanks damping_factor
  (dictSet acc.1 page r.1, r.2)

def sweep (damping_factor : ℚ) (numPage : ℕ) (corpus : Corpus)
    (pageRanks newRanks : RankDist) : RankDist × Corpus :=
  (keysOf pageRanks).foldl (sweepStep damping_factor numPage pageRanks)
    (newRanks, corpus)

/-- The `for page in corpus: pageRanks[page] = startingRank` loop of
`iterate_pagerank`: every page starts at `1 / numPage`. -/
def initRanks (corpus : Corpus) : RankDist :=
  (keysOf corpus).foldl
    (fun r p => dictSet r p (1 / (corpus.length : ℚ))) []

/-- The `while True` loop of `iterate_pagerank`, with explicit fuel
(`none` means the fuel ran out before the loop exited; the real loop is
unbounded).  On convergence the code `break`s before the
`pageRanks = newRanks.copy()` line, so the PREVIOUS ranks are returned;
otherwise `pageRanks` becomes (a copy of) `newRanks` and the same
`newRanks` dict keeps being overwritten. -/
def iterLoop (damping_factor : ℚ) (numPage : ℕ) :
    ℕ → Corpus → RankDist → RankDist → Option (RankDist × Corpus)
  | 0, _, _, _ => none
  | Nat.succ fuel, corpus, pageRanks, newRanks =>
    let res := sweep damping_factor numPage corpus pageRanks newRanks
    if hasConverged res.1 pageRanks then some (pageRanks, res.2)
    else iterLoop damping_factor numPage fuel res.2 res.1 res.1

/-- `iterate_pagerank` from the source.  `numPage = 0` makes
`startingRank = 1 / numPage` raise `ZeroDivisionError`.  The corpus in
the result models the final state of the dict of the caller, which the
Python code mutates in place. -/
def iterate_pagerank (corpus : Corpus) (damping_factor : ℚ) (fuel : ℕ) :
    Except PyError (Option (RankDist × Corpus)) :=
  if corpus.length = 0 then .error .zeroDivisionError
  else .ok (iterLoop damping_factor corpus.length fuel corpus (initRanks corpus) [])

/-- The outlink set of `q` after dangling normalization: an empty set is
replaced by the full key set of the corpus. -/
def normLinks (corpus : Corpus) (q : Page) : List Page :=
  if (linksOf corpus q).length = 0 then keysOf corpus else linksOf corpus q

/-- Modelled from the spec: the contribution of the link source `q` to
the new rank of `p`, namely `rank(q) / |outlinks(q)|` when the
(normalized) outlinks of `q` contain `p`, else `0`. -/
def specContrib (corpus : Corpus) (pageRanks : RankDist) (p q : Page) : ℚ :=
  if p ∈ normLinks corpus q then
    getRank pageRanks q / ((normLinks corpus q).length : ℚ)
  else 0

/-- Modelled from the spec: the PageRank recurrence
`new_rank(p) = (1 - d)/N + d * sum of rank(q)/|outlinks(q)| over the
pages q linking to p`, with dangling pages treated as linking to the
whole corpus.  Stated over the source graph, for comparison with the
state-threading code. -/
def specNewRank (corpus : Corpus) (pageRanks : RankDist) (damping_factor : ℚ)
    (p : Page) : ℚ :=
  (1 - damping_factor) / ((keysOf corpus).length : ℚ) +
    damping_factor * ((keysOf corpus).map (specContrib corpus pageRanks p)).sum

/-- `s` is the corpus `c` with SOME of its dangling entries already
rewritten to the full key set (the state partway through the lazy
normalization that `calculate_pagerank` performs). -/
def SInv (c s : Corpus) : Prop :=
  keysOf s = keysOf c ∧
    ∀ q ∈ keysOf c, linksOf s q = linksOf c q ∨
      ((linksOf c q).length = 0 ∧ linksOf s q = keysOf c)

/-- `s` is the corpus `c` with EVERY dangling entry rewritten to the
full key set. -/
def FInv (c s : Corpus) : Prop :=
  keysOf s = keysOf c ∧ ∀ q ∈ keysOf c, linksOf s q = normLinks c q

/-- Total number of recorded visits. -/
def sumCounts (l : List (Page × ℕ)) : ℕ := (l.map Prod.snd).sum

/-- The two-page cycle of the spec: A links to B and B links to A. -/
def gAB : Corpus := [("A", ["B"]), ("B", ["A"])]

/-- Three pages A, B, C where A links to B and C and both B and C link
back to A; with damping 1/1000 the first sweep moves every rank by a
nonzero amount of at most 1/1000. -/
def gACycle : Corpus := [("A", ["B", "C"]), ("B", ["A"]), ("C", ["A"])]

/-! ### Dictionary lemmas -/

theorem lookup_cons {α : Type} (k : Page) (e : Page × α) (rest : List (Page × α)) :
    List.lookup k (e :: rest) = if k = e.1 then some e.2 else List.lookup k rest := by
  obtain ⟨a, v⟩ := e
  by_cases h : k = a
  · simp [List.lookup, h]
  · have hb : (k == a) = false := beq_false_of_ne h
    simp [List.lookup, h, hb]

theorem lookup_dictSet_self {α : Type} (d : List (Page × α)) (k : Page) (v : α) :
    List.lookup k (dictSet d k v) = some v := by
  induction d with
  | nil => simp [dictSet, lookup_cons]
  | cons e rest ih =>
    by_cases h : e.1 = k
    · simp [dictSet, h, lookup_cons]
    · simpa [dictSet, h, lookup_cons, Ne.symm h] using ih

theorem lookup_dictSet_ne {α : Type} (d : List (Page × α)) (k k' : Page) (v : α)
    (h : k' ≠ k) : List.lookup k' (dictSet d k v) = List.lookup k' d := by
  induction d with
  | nil =>
    have hb : (k' == k) = false := beq_false_of_ne h
    simp [dictSet, List.lookup, hb]
  | cons e rest ih =>
    by_cases he : e.1 = k
    · subst he
      simp [dictSet, lookup_cons, h]
    · by_cases he' : k' = e.1
      · simp [dictSet, he, lookup_cons, he']
      · simp [dictSet, he, lookup_cons, he', ih]

theorem dictSet_ne_nil {α : Type} (d : List (Page × α)) (k : Page) (v : α) :
    dictSet d k v ≠ [] := by
  cases d with
  | nil => simp [dictSet]
  | cons e rest =>
    by_cases h : e.1 = k <;> simp [dictSet, h]

theorem keysOf_dictSet_mem {α : Type} (d : List (Page × α)) (k : Page) (v : α)
    (h : k ∈ keysOf d) : keysOf (dictSet d k v) = keysOf d := by
  induction d with
  | nil => simp [keysOf] at h
  | cons e rest ih =>
    by_cases he : e.1 = k
    · simp [dictSet, he, keysOf]
    · have hk : k ∈ keysOf rest := by
        rcases (by simpa [keysOf] using h : k = e.1 ∨ k ∈ List.map Prod.fst rest)
          with h1 | h1
        · exact absurd h1.symm he
        · simpa [keysOf] using h1
      simp only [dictSet, he, if_false, keysOf, List.map_cons]
      have := ih hk
      simp only [keysOf] at this
      rw [this]

theorem lookup_of_mem_keys {α : Type} (d : List (Page × α)) (k : Page)
    (h : k ∈ keysOf d) : ∃ v, List.lookup k d = some v := by
  induction d with
  | nil => simp [keysOf] at h
  | cons e rest ih =>
    by_cases he : k = e.1
    · exact ⟨e.2, by simp [lookup_cons, he]⟩
    · have hk : k ∈ keysOf rest := by
        rcases (by simpa [keysOf] using h : k = e.1 ∨ k ∈ List.map Prod.fst rest)
          with h1 | h1
        · exact absurd h1 he
        · simpa [keysOf] using h1
      obtain ⟨v, hv⟩ := ih hk
      exact ⟨v, by simpa [lookup_cons, he] using hv⟩

theorem lookup_eq_none_of_not_mem_keys {α : Type} (d : List (Page × α)) (k : Page)
    (h : k ∉ keysOf d) : List.lookup k d = none := by
  induction d with
  | nil => simp [List.lookup]
  | cons e rest ih =>
    have h1 : k ≠ e.1 := fun he => h (by simp [keysOf, he])
    have h2 : k ∉ keysOf rest := fun hk => h (by
      simp only [keysOf, List.map_cons, List.mem_cons]
      exact .inr (by simpa [keysOf] using hk))
    simpa [lookup_cons, h1] using ih h2

theorem lookup_foldl_dictSet_not_mem {α : Type} (v : α) (L : List Page) :
    ∀ (init : List (Page × α)) (p : Page), p ∉ L →
      List.lookup p (L.foldl (fun acc q => dictSet acc q v) init)
        = List.lookup p init := by
  induction L with
  | nil => intro init p _; rfl
  | cons q rest ih =>
    intro init p hp
    have h1 : p ∉ rest := fun h => hp (by simp [h])
    have h2 : p ≠ q := fun h => hp (by simp [h])
    rw [List.foldl_cons, ih _ p h1, lookup_dictSet_ne _ _ _ _ h2]

theorem lookup_foldl_dictSet_mem {α : Type} (v : α) (L : List Page) :
    ∀ (init : List (Page × α)) (p : Page), p ∈ L →
      List.lookup p (L.foldl (fun acc q => dictSet acc q v) init) = some v := by
  induction L with
  | nil => intro init p hp; simp at hp
  | cons q rest ih =>
    intro init p hp
    by_cases h1 : p ∈ rest
    · exact ih _ p h1
    · have h2 : p = q := by
        rcases List.mem_cons.mp hp with h | h
        · exact h
        · exact absurd h h1
      subst h2
      rw [List.foldl_cons, lookup_foldl_dictSet_not_mem v rest _ p h1,
        lookup_dictSet_self]

theorem keysOf_ne_nil {α : Type} (d : List (Page × α)) (h : d ≠ []) :
    keysOf d ≠ [] := by
  cases d with
  | nil => exact absurd rfl h
  | cons e rest => simp [keysOf]

/-! ### Invariants for the lazily normalized corpus -/

theorem SInv_refl (c : Corpus) : SInv c c := ⟨rfl, fun _ _ => .inl rfl⟩

theorem FInv_SInv (c s : Corpus) (h : FInv c s) : SInv c s := by
  refine ⟨h.1, fun q hq => ?_⟩
  have hq' := h.2 q hq
  unfold normLinks at hq'
  by_cases h0 : (linksOf c q).length = 0
  · exact .inr ⟨h0, by rwa [if_pos h0] at hq'⟩
  · exact .inl (by rwa [if_neg h0] at hq')

theorem calcStep_spec (c : Corpus) (pr : RankDist) (p q : Page) (σ : ℚ)
    (s : Corpus) (hk : keysOf c ≠ []) (hs : SInv c s) (hq : q ∈ keysOf c) :
    (calcStep p pr (σ, s) q).1 = σ + specContrib c pr p q
    ∧ SInv c (calcStep p pr (σ, s) q).2
    ∧ linksOf (calcStep p pr (σ, s) q).2 q = normLinks c q
    ∧ ∀ x, linksOf s x = normLinks c x →
        linksOf (calcStep p pr (σ, s) q).2 x = normLinks c x := by
  have hq' : q ∈ keysOf s := by rw [hs.1]; exact hq
  by_cases h0 : (linksOf s q).length = 0
  · -- the entry is still empty here, so the code rewrites it
    have hc0 : (linksOf c q).length = 0 := by
      rcases hs.2 q hq with h1 | h1
      · rwa [h1] at h0
      · exact absurd (List.length_eq_zero.mp (h1.2 ▸ h0)) hk
    have hnlc : normLinks c q = keysOf c := by rw [normLinks, if_pos hc0]
    have hga : getAllPages s = keysOf c := by rw [getAllPages, hs.1]
    have hLq : linksOf (dictSet s q (keysOf c)) q = keysOf c := by
      rw [linksOf, lookupD, lookup_dictSet_self, Option.getD_some]
    have hK : keysOf (dictSet s q (keysOf c)) = keysOf c := by
      rw [keysOf_dictSet_mem s q (keysOf c) hq', hs.1]
    have hLx : ∀ x, x ≠ q → linksOf (dictSet s q (keysOf c)) x = linksOf s x := by
      intro x hx
      rw [linksOf, lookupD, lookup_dictSet_ne s q x (keysOf c) hx, linksOf, lookupD]
    have hstep : calcStep p pr (σ, s) q =
        (if p ∈ keysOf c then
          (σ + getRank pr q / ((keysOf c).length : ℚ), dictSet s q (keysOf c))
        else (σ, dictSet s q (keysOf c))) := by
      simp only [calcStep, if_pos h0, hga, hLq]
    have hSInv : SInv c (dictSet s q (keysOf c)) := by
      refine ⟨hK, fun x hx => ?_⟩
      by_cases hxq : x = q
      · subst hxq; exact .inr ⟨hc0, hLq⟩
      · rw [hLx x hxq]; exact hs.2 x hx
    refine ⟨?_, ?_, ?_, ?_⟩
    · rw [hstep, specContrib, hnlc]
      by_cases hp : p ∈ keysOf c <;> simp [hp]
    · rw [hstep]
      by_cases hp : p ∈ keysOf c <;> simp [hp, hSInv]
    · rw [hstep, hnlc]
      by_cases hp : p ∈ keysOf c <;> simp [hp, hLq]
    · intro x hx
      rw [hstep]
      by_cases hxq : x = q
      · subst hxq
        by_cases hp : p ∈ keysOf c <;> simp [hp, hLq, hnlc]
      · by_cases hp : p ∈ keysOf c <;> simp [hp, hLx x hxq, hx]
  · -- the entry is already nonempty here
    have hnl : linksOf s q = normLinks c q := by
      rcases hs.2 q hq with h1 | h1
      · rw [normLinks, if_neg (by rwa [← h1]), h1]
      · rw [normLinks, if_pos h1.1, h1.2]
    have hstep : calcStep p pr (σ, s) q =
        (if p ∈ normLinks c q then
          (σ + getRank pr q / ((normLinks c q).length : ℚ), s)
        else (σ, s)) := by
      simp only [calcStep]
      rw [if_neg h0, hnl]
    refine ⟨?_, ?_, ?_, ?_⟩
    · rw [hstep, specContrib]
      by_cases hp : p ∈ normLinks c q <;> simp [hp]
    · rw [hstep]
      by_cases hp : p ∈ normLinks c q <;> simp [hp, hs]
    · rw [hstep]
      by_cases hp : p ∈ normLinks c q <;> simp [hp, hnl]
    · intro x hx
      rw [hstep]
      by_cases hp : p ∈ normLinks c q <;> simp [hp, hx]

theorem calc_fold_spec (c : Corpus) (pr : RankDist) (p : Page)
    (hk : keysOf c ≠ []) :
    ∀ (L : List Page), (∀ q ∈ L, q ∈ keysOf c) →
      ∀ (s : Corpus) (σ : ℚ), SInv c s →
      (L.foldl (calcStep p pr) (σ, s)).1
          = σ + (L.map (specContrib c pr p)).sum
      ∧ SInv c (L.foldl (calcStep p pr) (σ, s)).2
      ∧ (∀ q ∈ L, linksOf (L.foldl (calcStep p pr) (σ, s)).2 q = normLinks c q)
      ∧ ∀ x, linksOf s x = normLinks c x →
          linksOf (L.foldl (calcStep p pr) (σ, s)).2 x = normLinks c x := by
  intro L
  induction L with
  | nil =>
    intro _ s σ hs
    exact ⟨by simp, hs, by simp, fun x hx => hx⟩
  | cons q rest ih =>
    intro hmem s σ hs
    have hq := hmem q (by simp)
    obtain ⟨h1, h2, h3, h4⟩ := calcStep_spec c pr p q σ s hk hs hq
    have heta : calcStep p pr (σ, s) q
        = ((calcStep p pr (σ, s) q).1, (calcStep p pr (σ, s) q).2) := rfl
    obtain ⟨hr1, hr2, hr3, hr4⟩ :=
      ih (fun x hx => hmem x (by simp [hx])) (calcStep p pr (σ, s) q).2
        (calcStep p pr (σ, s) q).1 h2
    rw [List.foldl_cons, heta]
    refine ⟨?_, hr2, ?_, ?_⟩
    · rw [hr1, h1, List.map_cons, List.sum_cons, add_assoc]
    · intro x hx
      rcases List.mem_cons.mp hx with rfl | hx'
      · exact hr4 x h3
      · exact hr3 x hx'
    · intro x hx
      exact hr4 x (h4 x hx)

theorem calculate_pagerank_spec (c s : Corpus) (pr : RankDist) (p : Page)
    (d : ℚ) (n : ℕ) (hk : keysOf c ≠ []) (hs : SInv c s) :
    (calculate_pagerank p n s pr d).1
      = (1 - d) / (n : ℚ) + d * ((keysOf c).map (specContrib c pr p)).sum
    ∧ FInv c (calculate_pagerank p n s pr d).2 := by
  have hkeys : keysOf s = keysOf c := hs.1
  obtain ⟨h1, h2, h3, _⟩ :=
    calc_fold_spec c pr p hk (keysOf s) (fun q hq => hkeys ▸ hq) s 0 hs
  constructor
  · simp only [calculate_pagerank]
    rw [h1, hkeys, zero_add]
  · refine ⟨h2.1, fun q hq => h3 q ?_⟩
    rw [hkeys]
    exact hq

theorem sweep_fold_skip (pr : RankDist) (d : ℚ) (n : ℕ) :
    ∀ (L : List Page) (s : Corpus) (nr : RankDist) (p : Page), p ∉ L →
      List.lookup p (L.foldl (sweepStep d n pr) (nr, s)).1 = List.lookup p nr := by
  intro L
  induction L with
  | nil => intro s nr p _; rfl
  | cons q rest ih =>
    intro s nr p hp
    have h1 : p ∉ rest := fun h => hp (by simp [h])
    have h2 : p ≠ q := fun h => hp (by simp [h])
    rw [List.foldl_cons]
    have heta : sweepStep d n pr (nr, s) q
        = ((sweepStep d n pr (nr, s) q).1, (sweepStep d n pr (nr, s) q).2) := rfl
    rw [heta, ih _ _ p h1]
    exact lookup_dictSet_ne nr q p _ h2

theorem sweep_fold_ne_nil (pr : RankDist) (d : ℚ) (n : ℕ) :
    ∀ (L : List Page) (s : Corpus) (nr : RankDist), nr ≠ [] ∨ L ≠ [] →
      (L.foldl (sweepStep d n pr) (nr, s)).1 ≠ [] := by
  intro L
  induction L with
  | nil =>
    intro s nr h
    rcases h with h | h
    · exact h
    · exact absurd rfl h
  | cons q rest ih =>
    intro s nr _
    rw [List.foldl_cons]
    have heta : sweepStep d n pr (nr, s) q
        = ((sweepStep d n pr (nr, s) q).1, (sweepStep d n pr (nr, s) q).2) := rfl
    rw [heta]
    exact ih _ _ (.inl (dictSet_ne_nil nr q _))

theorem sweep_fold_state (c : Corpus) (pr : RankDist) (d : ℚ) (n : ℕ)
    (hk : keysOf c ≠ []) :
    ∀ (L : List Page) (s : Corpus) (nr : RankDist), SInv c s →
      SInv c (L.foldl (sweepStep d n pr) (nr, s)).2
      ∧ (L ≠ [] → FInv c (L.foldl (sweepStep d n pr) (nr, s)).2) := by
  intro L
  induction L with
  | nil => intro s nr hs; exact ⟨hs, fun h => absurd rfl h⟩
  | cons q rest ih =>
    intro s nr hs
    have hcalc := calculate_pagerank_spec c s pr q d n hk hs
    have hstate : (sweepStep d n pr (nr, s) q).2
        = (calculate_pagerank q n s pr d).2 := rfl
    have hF : FInv c (sweepStep d n pr (nr, s) q).2 := by
      rw [hstate]; exact hcalc.2
    have heta : sweepStep d n pr (nr, s) q
        = ((sweepStep d n pr (nr, s) q).1, (sweepStep d n pr (nr, s) q).2) := rfl
    obtain ⟨i1, i2⟩ := ih (sweepStep d n pr (nr, s) q).2 (sweepStep d n pr (nr, s) q).1
      (FInv_SInv c _ hF)
    rw [List.foldl_cons, heta]
    refine ⟨i1, fun _ => ?_⟩
    by_cases hr : rest = []
    · subst hr; exact hF
    · exact i2 hr

theorem sweep_fold_lookup (c : Corpus) (pr : RankDist) (d : ℚ) (n : ℕ)
    (hk : keysOf c ≠ []) :
    ∀ (L : List Page), L.Nodup →
      ∀ (s : Corpus) (nr : RankDist), SInv c s →
      ∀ p ∈ L, List.lookup p (L.foldl (sweepStep d n pr) (nr, s)).1
        = some ((1 - d) / (n : ℚ)
            + d * ((keysOf c).map (specContrib c pr p)).sum) := by
  intro L
  induction L with
  | nil => intro _ s nr _ p hp; simp at hp
  | cons q rest ih =>
    intro hnd s nr hs p hp
    have hcalc := calculate_pagerank_spec c s pr q d n hk hs
    have hsinv : SInv c (sweepStep d n pr (nr, s) q).2 :=
      FInv_SInv c _ (by
        have hstate : (sweepStep d n pr (nr, s) q).2
            = (calculate_pagerank q n s pr d).2 := rfl
        rw [hstate]; exact hcalc.2)
    have heta : sweepStep d n pr (nr, s) q
        = ((sweepStep d n pr (nr, s) q).1, (sweepStep d n pr (nr, s) q).2) := rfl
    rw [List.foldl_cons, heta]
    rcases List.mem_cons.mp hp with rfl | hp'
    · have hnr : p ∉ rest := (List.nodup_cons.mp hnd).1
      rw [sweep_fold_skip pr d n rest _ _ p hnr]
      have hfst : (sweepStep d n pr (nr, s) p).1
          = dictSet nr p (calculate_pagerank p n s pr d).1 := rfl
      rw [hfst, lookup_dictSet_self nr p _, hcalc.1]
    · exact ih (List.nodup_cons.mp hnd).2 _ _ hsinv p hp'

theorem iterLoop_state (c : Corpus) (d : ℚ) (n : ℕ) (hk : keysOf c ≠ []) :
    ∀ (fuel : ℕ) (s : Corpus) (pr nr ranks : RankDist) (cOut : Corpus),
      SInv c s → pr ≠ [] →
      iterLoop d n fuel s pr nr = some (ranks, cOut) → FInv c cOut := by
  intro fuel
  induction fuel with
  | zero => intro s pr nr ranks cOut _ _ h; simp [iterLoop] at h
  | succ fuel ih =>
    intro s pr nr ranks cOut hs hpr h
    have hkpr : keysOf pr ≠ [] := keysOf_ne_nil pr hpr
    have hsw := sweep_fold_state c pr d n hk (keysOf pr) s nr hs
    have hF : FInv c (sweep d n s pr nr).2 := hsw.2 hkpr
    rw [iterLoop] at h
    by_cases hcv : hasConverged (sweep d n s pr nr).1 pr = true
    · rw [if_pos hcv] at h
      obtain ⟨h1, h2⟩ := Prod.mk.injEq .. ▸ Option.some.injEq .. ▸ h
      exact h2 ▸ hF
    · rw [if_neg hcv] at h
      exact ih (sweep d n s pr nr).2 (sweep d n s pr nr).1 (sweep d n s pr nr).1
        ranks cOut (FInv_SInv c _ hF)
        (sweep_fold_ne_nil pr d n (keysOf pr) s nr (.inr hkpr)) h

/-! ### Sampling estimator lemmas -/

theorem transition_model_ok (corpus : Corpus) (page : Page) (d : ℚ)
    (pick : Bool) (hk : keysOf corpus ≠ []) :
    ∃ chain, transition_model corpus page d pick = .ok chain := by
  unfold transition_model
  have hlen : ¬ ((if pick then
      (if page ∈ keysOf corpus ∧ 0 < (linksOf corpus page).length then
        linksOf corpus page
      else keysOf corpus)
    else keysOf corpus)).length = 0 := by
    have hkl : ¬ (keysOf corpus).length = 0 := by
      intro h
      exact hk (List.length_eq_zero.mp h)
    cases pick
    · simpa using hkl
    · by_cases hc : page ∈ keysOf corpus ∧ 0 < (linksOf corpus page).length
      · simp only [if_pos hc, if_pos]
        omega
      · simpa [hc] using hkl
  rw [if_neg hlen]
  exact ⟨_, rfl⟩

theorem sumCounts_bump (counts : List (Page × ℕ)) (p : Page) :
    sumCounts (dictSet counts p (lookupD counts p 0 + 1))
      = sumCounts counts + 1 := by
  induction counts with
  | nil => simp [sumCounts, dictSet, lookupD]
  | cons e rest ih =>
    by_cases h : e.1 = p
    · subst h
      simp [sumCounts, dictSet, lookupD, lookup_cons]
      omega
    · have hne : p ≠ e.1 := fun hh => h hh.symm
      simp only [lookupD, lookup_cons, if_neg hne] at ih ⊢
      simp only [dictSet, if_neg h, sumCounts, List.map_cons, List.sum_cons] at ih ⊢
      omega

theorem sampleLoop_ok (corpus : Corpus) (d : ℚ) (branch : ℕ → Bool)
    (pickIdx : ℕ → ℕ) (hk : keysOf corpus ≠ []) :
    ∀ (n step : ℕ) (page : Page) (counts : List (Page × ℕ)),
      ∃ out, sampleLoop corpus d branch pickIdx n step page counts = .ok out
        ∧ sumCounts out = sumCounts counts + n := by
  intro n
  induction n with
  | zero =>
    intro step page counts
    exact ⟨counts, rfl, by simp⟩
  | succ n ih =>
    intro step page counts
    obtain ⟨chain, hchain⟩ := transition_model_ok corpus page d (branch step) hk
    obtain ⟨out, hout, hsum⟩ := ih (step + 1)
      ((keysOf chain).getD (pickIdx step % (keysOf chain).length) "")
      (dictSet counts ((keysOf chain).getD (pickIdx step % (keysOf chain).length) "")
        (lookupD counts ((keysOf chain).getD (pickIdx step % (keysOf chain).length) "") 0 + 1))
    refine ⟨out, ?_, ?_⟩
    · rw [sampleLoop, hchain]
      exact hout
    · rw [hsum, sumCounts_bump]
      omega

theorem sum_map_div (n : ℕ) (l : List (Page × ℕ)) :
    ((l.map (fun e => (e.1, (e.2 : ℚ) / (n : ℚ)))).map Prod.snd).sum
      = (sumCounts l : ℚ) / (n : ℚ) := by
  induction l with
  | nil => simp [sumCounts]
  | cons e rest ih =>
    simp only [List.map_cons, List.sum_cons, ih, sumCounts]
    push_cast
    rw [add_div]

/-! ### Claim theorems -/

theorem iterLoop_stops (d : ℚ) (n fuel : ℕ) (s : Corpus) (pr nr : RankDist)
    (h : hasConverged (sweep d n s pr nr).1 pr = true) :
    iterLoop d n (fuel + 1) s pr nr = some (pr, (sweep d n s pr nr).2) := by
  rw [iterLoop, if_pos h]

/-- Claim C2 (amended): with the hard-coded threshold 0.001, when a sweep
produces `newRanks` whose maximum absolute per-page difference from the
previous `pageRanks` is at most 0.001, the loop terminates and returns
the PREVIOUS ranks `pageRanks` (the ranks from before the final sweep),
not `newRanks`; every page of `newRanks` is within 0.001 of the
returned value. -/
theorem c2_loop_returns_previous_ranks (d : ℚ) (n fuel : ℕ) (s : Corpus)
    (pr nr : RankDist)
    (h : hasConverged (sweep d n s pr nr).1 pr = true) :
    iterLoop d n (fuel + 1) s pr nr = some (pr, (sweep d n s pr nr).2)
    ∧ ∀ e ∈ (sweep d n s pr nr).1, |e.2 - getRank pr e.1| ≤ 1 / 1000 := by
  refine ⟨by rw [iterLoop, if_pos h], fun e he => ?_⟩
  rw [hasConverged] at h
  exact of_decide_eq_true (List.all_eq_true.mp h e he)

/-- Claim C2 (counterexample): on `gACycle` with damping 1/1000 the very
first sweep converges, and the code returns the pre-sweep uniform ranks
(1/3 each) while the just-computed `newRanks` value of page A is
1001/3000, which differs: the claim says the just-computed ranks are
returned. -/
theorem c2_counterexample :
    iterate_pagerank gACycle (1 / 1000) 2
      = .ok (some ([("A", 1/3), ("B", 1/3), ("C", 1/3)], gACycle))
    ∧ List.lookup "A" (sweep (1 / 1000) 3 gACycle
        [("A", 1/3), ("B", 1/3), ("C", 1/3)] []).1 = some (1001 / 3000)
    ∧ (1 / 3 : ℚ) ≠ 1001 / 3000 := by
  refine ⟨?_, ?_, by norm_num⟩
  · simp [iterate_pagerank, iterLoop, initRanks, sweep, sweepStep,
      calculate_pagerank, calcStep, hasConverged, dictSet, keysOf, linksOf,
      lookupD, getAllPages, getRank, List.lookup, gACycle]
    norm_num [abs_le]
  · simp [sweep, sweepStep, calculate_pagerank, calcStep, dictSet, keysOf,
      linksOf, lookupD, getAllPages, getRank, List.lookup, gACycle]
    norm_num

theorem c2_witness :
    iterLoop (1/2) 2 (0 + 1) gAB [("A", (1:ℚ)/2), ("B", (1:ℚ)/2)] []
      = some ([("A", (1:ℚ)/2), ("B", (1:ℚ)/2)],
          (sweep (1/2) 2 gAB [("A", (1:ℚ)/2), ("B", (1:ℚ)/2)] []).2) :=
  (c2_loop_returns_previous_ranks (1/2) 2 0 gAB
    [("A", (1:ℚ)/2), ("B", (1:ℚ)/2)] [] (by
      simp [hasConverged, sweep, sweepStep, calculate_pagerank, calcStep,
        dictSet, keysOf, linksOf, lookupD, getAllPages, getRank,
        List.lookup, gAB]
      norm_num [abs_le])).1

/-- Claim C9: on the two-page cycle {A, B} with A linking to B and B
linking to A, the iterative estimator converges for every damping factor
in [0, 1) and returns rank 1/2 for both pages (exactly, so certainly
within the convergence tolerance); the corpus is left unchanged. -/
theorem c9_two_page_cycle (d : ℚ) (h0 : 0 ≤ d) (h1 : d < 1) (fuel : ℕ)
    (hf : 1 ≤ fuel) :
    iterate_pagerank gAB d fuel
      = .ok (some ([("A", (1:ℚ)/2), ("B", (1:ℚ)/2)], gAB)) := by
  obtain ⟨k, rfl⟩ : ∃ k, fuel = k + 1 := ⟨fuel - 1, by omega⟩
  have hinit : initRanks gAB = [("A", (1:ℚ)/2), ("B", (1:ℚ)/2)] := by
    simp [initRanks, gAB, keysOf, dictSet]
  have hsw : sweep d 2 gAB [("A", (1:ℚ)/2), ("B", (1:ℚ)/2)] []
      = ([("A", (1:ℚ)/2), ("B", (1:ℚ)/2)], gAB) := by
    simp [sweep, sweepStep, calculate_pagerank, calcStep, gAB, keysOf,
      dictSet, linksOf, lookupD, getRank, getAllPages, List.lookup]
    ring
  have hcv : hasConverged
      (sweep d 2 gAB [("A", (1:ℚ)/2), ("B", (1:ℚ)/2)] []).1
      [("A", (1:ℚ)/2), ("B", (1:ℚ)/2)] = true := by
    rw [hsw]
    simp [hasConverged, getRank, lookupD, List.lookup]
  have hlen : gAB.length = 2 := rfl
  rw [iterate_pagerank, if_neg (by simp [gAB]), hlen, hinit,
    iterLoop_stops d 2 k gAB _ [] hcv, hsw]

theorem c9_witness :
    iterate_pagerank gAB (17/20) 1
      = .ok (some ([("A", (1:ℚ)/2), ("B", (1:ℚ)/2)], gAB)) :=
  c9_two_page_cycle (17/20) (by norm_num) (by norm_num) 1 (by norm_num)

/-- Claim C10: the iterative estimator mutates the corpus dict of the
caller: when a call completes, every page whose outlink set was empty
has had its entry replaced by the full key set of the corpus (the page
itself included), and every page with a nonempty outlink set keeps its
original entry. -/
theorem c10_iterate_mutates_corpus (c : Corpus) (d : ℚ) (fuel : ℕ)
    (ranks : RankDist) (cOut : Corpus)
    (h : iterate_pagerank c d fuel = .ok (some (ranks, cOut))) :
    ∀ p ∈ keysOf c, List.lookup p cOut
      = some (if (linksOf c p).length = 0 then keysOf c else linksOf c p) := by
  have hne : ¬ c.length = 0 := by
    intro h0
    rw [iterate_pagerank, if_pos h0] at h
    cases h
  rw [iterate_pagerank, if_neg hne] at h
  have hok : iterLoop d c.length fuel c (initRanks c) [] = some (ranks, cOut) :=
    Except.ok.inj h
  have hcne : c ≠ [] := by
    intro h0
    subst h0
    exact hne rfl
  have hk : keysOf c ≠ [] := keysOf_ne_nil c hcne
  have hpr : initRanks c ≠ [] := by
    intro hnil
    obtain ⟨p, hp⟩ := List.exists_mem_of_ne_nil (keysOf c) hk
    have hlook : List.lookup p (initRanks c) = some (1 / (c.length : ℚ)) :=
      lookup_foldl_dictSet_mem _ (keysOf c) [] p hp
    rw [hnil] at hlook
    simp [List.lookup] at hlook
  have hF := iterLoop_state c d c.length hk fuel c (initRanks c) [] ranks cOut
    (SInv_refl c) hpr hok
  intro p hp
  have hv := hF.2 p hp
  have hkeys : p ∈ keysOf cOut := by rw [hF.1]; exact hp
  obtain ⟨v, hvl⟩ := lookup_of_mem_keys cOut p hkeys
  have hveq : v = normLinks c p := by
    rw [← hv, linksOf, lookupD, hvl, Option.getD_some]
  rw [hvl, hveq, normLinks]

theorem c10_witness :
    List.lookup "A" [("A", ["A"])]
      = some (if (linksOf [("A", [])] "A").length = 0
          then keysOf [("A", ([] : List Page))] else linksOf [("A", [])] "A") := by
  have h := c10_iterate_mutates_corpus [("A", [])] (1/2) 1 [("A", 1)]
    [("A", ["A"])] (by
      simp [iterate_pagerank, iterLoop, initRanks, sweep, sweepStep,
        calculate_pagerank, calcStep, hasConverged, dictSet, keysOf, linksOf,
        lookupD, getAllPages, getRank, List.lookup])
  exact h "A" (by simp [keysOf])

/-- Claim C3: for a graph with at least one page, the starting ranks
assign 1/N to every page, and each sweep of the iterative estimator
assigns to every page p the value
`(1 - d)/N + d * sum over q with p in outlinks(q) of rank(q)/|outlinks(q)|`,
where a dangling q counts as linking to every page (so it contributes
rank(q)/N to each).  The sweep is stated over any corpus state `s` the
lazy normalization can produce (`SInv c s`), which covers the first
sweep (`s = c`) and all later ones. -/
theorem c3_sweep_recurrence (c s : Corpus) (pr nr : RankDist) (d : ℚ)
    (hne : c ≠ []) (hs : SInv c s) (hnd : (keysOf pr).Nodup) :
    (∀ p ∈ keysOf c, List.lookup p (initRanks c) = some (1 / (c.length : ℚ)))
    ∧ ∀ p ∈ keysOf pr,
        List.lookup p (sweep d c.length s pr nr).1
          = some (specNewRank c pr d p) := by
  have hk : keysOf c ≠ [] := keysOf_ne_nil c hne
  constructor
  · intro p hp
    exact lookup_foldl_dictSet_mem _ (keysOf c) [] p hp
  · intro p hp
    have hlook := sweep_fold_lookup c pr d c.length hk (keysOf pr) hnd s nr hs p hp
    have hlen : ((keysOf c).length : ℚ) = (c.length : ℚ) := by simp [keysOf]
    rw [specNewRank, hlen]
    exact hlook

theorem c3_witness :
    List.lookup "A" (sweep (17/20) gAB.length gAB (initRanks gAB) []).1
      = some (specNewRank gAB (initRanks gAB) (17/20) "A") := by
  have h := c3_sweep_recurrence gAB gAB (initRanks gAB) [] (17/20)
    (by simp [gAB]) (SInv_refl gAB)
    (by simp [initRanks, gAB, keysOf, dictSet])
  exact h.2 "A" (by simp [initRanks, gAB, keysOf, dictSet])

/-- Claim C6 (counterexample): called on a page that is not a key of the
graph, the transition model does NOT fail: on the two-page graph it
returns a distribution (so no UnknownPageError-style failure occurs),
contrary to the claim that the call is fatal. -/
theorem c6_counterexample :
    transition_model [("1", ["2"]), ("2", ["1"])] "3" (17/20) true
      = .ok [("3", 1/20), ("1", 19/40), ("2", 19/40)]
    ∧ ∀ e : PyError,
        transition_model [("1", ["2"]), ("2", ["1"])] "3" (17/20) true
          ≠ .error e := by
  have h : transition_model [("1", ["2"]), ("2", ["1"])] "3" (17/20) true
      = .ok [("3", 1/20), ("1", 19/40), ("2", 19/40)] := by
    simp [transition_model, dictSet, keysOf, linksOf, lookupD, getAllPages,
      List.lookup]
    norm_num
  refine ⟨h, fun e hx => ?_⟩
  rw [h] at hx
  cases hx

/-- Claim C6 (amended): for a nonempty graph and a page that is not a key
of the graph, the transition model does not fail; it treats the unknown
page like a dangling one (the branch set falls back to the full key set
for either random draw), returning a mapping that gives the unknown page
`(1 - d)/(N + 1)` and every corpus page `d/N + (1 - d)/(N + 1)`. -/
theorem c6_unknown_page_returns_distribution (corpus : Corpus) (page : Page)
    (d : ℚ) (pick : Bool) (hc : corpus ≠ []) (hp : page ∉ keysOf corpus) :
    ∃ dist, transition_model corpus page d pick = .ok dist
      ∧ List.lookup page dist = some ((1 - d) / ((corpus.length : ℚ) + 1))
      ∧ ∀ q ∈ keysOf corpus, List.lookup q dist
          = some (d / (corpus.length : ℚ)
              + (1 - d) / ((corpus.length : ℚ) + 1)) := by
  have hcond : ¬ (page ∈ keysOf corpus ∧ 0 < (linksOf corpus page).length) :=
    fun h => hp h.1
  have hk : keysOf corpus ≠ [] := keysOf_ne_nil corpus hc
  have hklen : (keysOf corpus).length = corpus.length := by simp [keysOf]
  have hlen0 : ¬ ((keysOf corpus).length = 0) :=
    fun h => hk (List.length_eq_zero.mp h)
  simp only [transition_model]
  rw [if_neg hcond]
  have hsel : (if pick then keysOf corpus else keysOf corpus) = keysOf corpus := by
    cases pick <;> rfl
  rw [hsel, if_neg hlen0]
  refine ⟨_, rfl, ?_, ?_⟩
  · rw [lookup_foldl_dictSet_not_mem _ (keysOf corpus) _ page hp,
      lookup_dictSet_self, hklen]
  · intro q hq
    rw [lookup_foldl_dictSet_mem _ (keysOf corpus) _ q hq, hklen]

theorem c6_witness :
    ∃ dist, transition_model [("1", ["2"]), ("2", ["1"])] "3" (17/20) false
      = .ok dist
      ∧ List.lookup "3" dist
          = some ((1 - 17/20) / ((([("1", ["2"]), ("2", ["1"])] : Corpus).length : ℚ) + 1))
      ∧ ∀ q ∈ keysOf ([("1", ["2"]), ("2", ["1"])] : Corpus), List.lookup q dist
          = some ((17/20) / (([("1", ["2"]), ("2", ["1"])] : Corpus).length : ℚ)
              + (1 - 17/20) / ((([("1", ["2"]), ("2", ["1"])] : Corpus).length : ℚ) + 1)) :=
  c6_unknown_page_returns_distribution [("1", ["2"]), ("2", ["1"])] "3"
    (17/20) false (by simp) (by simp [keysOf])

/-- Claim C7 (counterexample): on the zero-page graph the iterative
estimator fails with a ZeroDivisionError (from `1 / numPage`) and the
sampling estimator fails with an IndexError (from `random.choice` on an
empty sequence); neither failure is the EmptyCorpusError the claim
requires. -/
theorem c7_counterexample :
    iterate_pagerank [] (17/20) 3 = .error .zeroDivisionError
    ∧ sample_pagerank [] (17/20) 5 0 (fun _ => true) (fun _ => 0)
        = .error .indexError
    ∧ PyError.zeroDivisionError ≠ PyError.emptyCorpusError
    ∧ PyError.indexError ≠ PyError.emptyCorpusError :=
  ⟨rfl, rfl, by decide, by decide⟩

/-- Claim C7 (amended): for the zero-page graph, for every damping
factor, fuel, sample count and oracle, the iterative estimator fails
with ZeroDivisionError and the sampling estimator fails with
IndexError; neither returns a mapping and neither raises an
EmptyCorpusError (no such error exists in the code). -/
theorem c7_empty_corpus_errors (d : ℚ) (fuel n initPick : ℕ)
    (branch : ℕ → Bool) (pickIdx : ℕ → ℕ) :
    iterate_pagerank [] d fuel = .error .zeroDivisionError
    ∧ sample_pagerank [] d n initPick branch pickIdx = .error .indexError :=
  ⟨rfl, rfl⟩

/-- Claim C8: for every nonempty graph, damping factor, oracle and
positive sample count n, the sampling estimator returns a mapping whose
values are exact integer multiples of 1/n and whose values sum to
exactly 1 (in exact rational arithmetic the visit counts sum to n). -/
theorem c8_sampling_values (corpus : Corpus) (d : ℚ) (n initPick : ℕ)
    (branch : ℕ → Bool) (pickIdx : ℕ → ℕ) (hc : corpus ≠ []) (hn : 0 < n) :
    ∃ dist, sample_pagerank corpus d n initPick branch pickIdx = .ok dist
      ∧ (∀ e ∈ dist, ∃ k : ℕ, e.2 = (k : ℚ) / (n : ℚ))
      ∧ (dist.map Prod.snd).sum = 1 := by
  have hk : keysOf corpus ≠ [] := keysOf_ne_nil corpus hc
  have hlen0 : ¬ ((keysOf corpus).length = 0) :=
    fun h => hk (List.length_eq_zero.mp h)
  obtain ⟨out, hout, hsum⟩ := sampleLoop_ok corpus d branch pickIdx hk n 0
    ((keysOf corpus).getD (initPick % (keysOf corpus).length) "") []
  refine ⟨out.map (fun e => (e.1, (e.2 : ℚ) / (n : ℚ))), ?_, ?_, ?_⟩
  · simp only [sample_pagerank]
    rw [if_neg hlen0, hout]
  · intro e he
    obtain ⟨a, _, rfl⟩ := List.mem_map.mp he
    exact ⟨a.2, rfl⟩
  · rw [sum_map_div, hsum]
    have hz : sumCounts ([] : List (Page × ℕ)) = 0 := rfl
    rw [hz, Nat.zero_add, div_self]
    exact Nat.cast_ne_zero.mpr (Nat.pos_iff_ne_zero.mp hn)

theorem c8_witness :
    ∃ dist, sample_pagerank gAB (17/20) 3 0 (fun _ => true) (fun _ => 0)
        = .ok dist
      ∧ (∀ e ∈ dist, ∃ k : ℕ, e.2 = (k : ℚ) / ((3 : ℕ) : ℚ))
      ∧ (dist.map Prod.snd).sum = 1 :=
  c8_sampling_values gAB (17/20) 3 0 (fun _ => true) (fun _ => 0)
    (by simp [gAB]) (by norm_num)

/-- Claim C1 (code bug): the claim (and the spec formula) says the
transition model from page 1 of the graph 1 links to 2, 2 links to 1 and 3,
3 links to 1, with damping 0.85, assigns `d/|L| * [p in L] + (1-d)/N`
to each page and lists every corpus page as a key.  The code instead
divides the teleportation term by `len(selection) + 1` instead of `N`
and only lists `selection` plus the current page: it returns
{1: 3/40, 2: 37/40}, omitting page 3 entirely, and the value at page 2
differs from the spec value `17/20 / 1 + (3/20)/3 = 9/10`. -/
theorem c1_transition_formula_bug :
    transition_model [("1", ["2"]), ("2", ["1", "3"]), ("3", ["1"])] "1"
        (17/20) true
      = .ok [("1", 3/40), ("2", 37/40)]
    ∧ List.lookup "3" [("1", (3/40 : ℚ)), ("2", 37/40)] = none
    ∧ (37/40 : ℚ) ≠ (17/20) / 1 + (1 - 17/20) / 3 := by
  refine ⟨?_, by simp [lookup_cons], by norm_num⟩
  simp [transition_model, dictSet, keysOf, linksOf, lookupD, getAllPages,
    List.lookup]
  norm_num

/-- Claim C4 (code bug): the claim says the returned values sum to 1
within 1e-9 for any valid graph, page and damping in (0,1).  For the
dangling page 3 of the graph 1 links to 2, 2 links to 1, 3 links to
nothing, with damping 0.85, every page gets 17/60 + 3/80 = 77/240, so
the values sum to 77/80, which misses 1 by 3/80, far beyond 1e-9. -/
theorem c4_transition_sum_bug :
    transition_model [("1", ["2"]), ("2", ["1"]), ("3", [])] "3" (17/20) true
      = .ok [("3", 77/240), ("1", 77/240), ("2", 77/240)]
    ∧ (([("3", (77/240 : ℚ)), ("1", 77/240), ("2", 77/240)]).map Prod.snd).sum
        = 77/80
    ∧ ¬ (|((77 : ℚ)/80) - 1| ≤ 1/1000000000) := by
  refine ⟨?_, by norm_num, by rw [abs_le]; norm_num⟩
  simp [transition_model, dictSet, keysOf, linksOf, lookupD, getAllPages,
    List.lookup]
  norm_num

/-- Claim C5 (code bug): the claim says a dangling page gets the uniform
distribution 1/N over the corpus for every damping factor.  The code
gives every page `d/N + (1-d)/(N+1)` instead: on the same three-page
graph with damping 0.85 every page gets 77/240, not 1/3, for both
outcomes of the random branch draw. -/
theorem c5_transition_dangling_bug :
    (∀ pick : Bool,
      transition_model [("1", ["2"]), ("2", ["1"]), ("3", [])] "3" (17/20) pick
        = .ok [("3", 77/240), ("1", 77/240), ("2", 77/240)])
    ∧ (77/240 : ℚ) ≠ 1/3 := by
  refine ⟨fun pick => ?_, by norm_num⟩
  cases pick <;>
    · simp [transition_model, dictSet, keysOf, linksOf, lookupD, getAllPages,
        List.lookup]
      norm_num
